import Mathlib

/-!
# MeasurePro (`src/src/App.jsx`): measurement list, undo/redo history, zoom

A shallow embedding of the state handled by the `App` component and of its
event handlers.

React specifics that the embedding makes explicit:

* `useState` cells (`measurements`, `history`, `historyIndex`, `zoomLevel`)
  become fields of a state record / plain values; a functional update
  `setX(prev => e)` becomes a function of the previous value.
* `useCallback(fn, deps)` keeps the function object of an earlier render until
  one of `deps` changes, so the variables that `fn` reads from the enclosing
  render are the ones of the render in which it was created.  The only render
  variable read through such a captured scope and not listed in the
  dependencies is `historyIndex`, read on line 61 inside `addToHistory`:
  - `addToHistory` itself has deps `[historyIndex]` (line 63): the
    `addToHistory` of a render always reads that render's `historyIndex`;
  - `handleDeleteMeasurement` has deps `[]` (line 39): it is the function of
    the first render for ever and calls the first render's `addToHistory`,
    whose `historyIndex` is the initial `-1` (line 18);
  - `addNewMeasurement` has deps `[measurements.length]` (line 91): it calls
    the `addToHistory` of the last render in which `measurements.length`
    differed from the render before;
  - `undo` and `redo` have deps `[history, historyIndex]` (lines 70, 77), all
    they read.
* `Date.now()` (line 81) is an input of `addNewMeasurement`.
* Every handler runs to completion and the component re-renders before the
  next handler runs.
-/

namespace MeasureApp

/-- A measurement record, `{ id, name, width, height }` (lines 11-12, 80-85). -/
structure Measurement where
  id : Nat
  name : String
  width : Nat
  height : Nat
deriving DecidableEq, Repr

/-- The fallback list of line 10-13, used when nothing was saved. -/
def seedMeasurements : List Measurement :=
  [ { id := 1, name := "Window 1", width := 100, height := 150 },
    { id := 2, name := "Door 1", width := 80, height := 200 } ]

/-- JavaScript `xs.slice(0, e)` for an integer `e`: a negative `e` counts from
the end of the array. -/
def sliceTo {α : Type} (xs : List α) (e : Int) : List α :=
  if e < 0 then xs.take ((xs.length : Int) + e).toNat else xs.take e.toNat

/-- JavaScript `xs[i]` for an integer `i`: `none` stands for `undefined`. -/
def index {α : Type} (xs : List α) (i : Int) : Option α :=
  if i < 0 then none else xs.get? i.toNat

/-- The state cells of `App` that the handlers below read or write, together
with `addCaptured`: the `historyIndex` of the render whose `addToHistory` the
current (memoised) `addNewMeasurement` calls. -/
structure AppState where
  measurements : List Measurement
  history : List (List Measurement)
  historyIndex : Int
  addCaptured : Int
deriving DecidableEq, Repr

/-- The state of the first render: `history = []`, `historyIndex = -1`
(lines 17-18), and the measurement list read at line 8-14. -/
def initialState (measurements : List Measurement) : AppState :=
  { measurements := measurements, history := [], historyIndex := -1, addCaptured := -1 }

/-- Lines 60-63.  `historyIndex` is the variable of the render in which this
`addToHistory` was created (line 61 reads it); the index itself is updated
from its previous value (line 62). -/
def addToHistory (historyIndex : Int) (newState : List Measurement) (s : AppState) : AppState :=
  { s with
    history := sliceTo s.history (historyIndex + 1) ++ [newState]
    historyIndex := s.historyIndex + 1 }

/-- The list computed at line 35: `prevMeasurements.filter(m => m.id !== id)`. -/
def deleteFrom (prevMeasurements : List Measurement) (id : Nat) : List Measurement :=
  prevMeasurements.filter (fun m => m.id != id)

/-- Lines 33-39.  The callback is created once (deps `[]`), so the
`addToHistory` it calls is the one of the first render, which reads
`historyIndex = -1`. -/
def handleDeleteMeasurement (id : Nat) (s : AppState) : AppState :=
  let newMeasurements := deleteFrom s.measurements id
  { addToHistory (-1) newMeasurements s with measurements := newMeasurements }

/-- The record built at lines 80-85; `count` is `measurements.length` and
`now` the value of `Date.now()`. -/
def newMeasurement (now : Nat) (count : Nat) : Measurement :=
  { id := now, name := "Item " ++ toString (count + 1), width := 100, height := 100 }

/-- The list computed at line 87. -/
def appendNew (now : Nat) (prevMeasurements : List Measurement) : List Measurement :=
  prevMeasurements ++ [newMeasurement now prevMeasurements.length]

/-- Lines 79-91.  `measurements.length` is a dependency, so the length read at
line 82 is the current one; the `addToHistory` called at line 88 reads the
captured `historyIndex`. -/
def addNewMeasurement (now : Nat) (s : AppState) : AppState :=
  let newMeasurements := appendNew now s.measurements
  { addToHistory s.addCaptured newMeasurements s with measurements := newMeasurements }

/-- Lines 65-70.  `none`: `history[historyIndex - 1]` is `undefined`, it is
stored in `measurements`, and the next render throws at
`measurements.length` (line 91). -/
def undo (s : AppState) : Option AppState :=
  if s.historyIndex > 0 then
    (index s.history (s.historyIndex - 1)).map fun m =>
      { s with historyIndex := s.historyIndex - 1, measurements := m }
  else some s

/-- Lines 72-77, with `none` as for `undo`. -/
def redo (s : AppState) : Option AppState :=
  if s.historyIndex < (s.history.length : Int) - 1 then
    (index s.history (s.historyIndex + 1)).map fun m =>
      { s with historyIndex := s.historyIndex + 1, measurements := m }
  else some s

/-- The re-render after a handler: `addNewMeasurement` is created anew exactly
when `measurements.length` changed (line 91), and then calls the
`addToHistory` of this render. -/
def rerender (prev next : AppState) : AppState :=
  if next.measurements.length ≠ prev.measurements.length then
    { next with addCaptured := next.historyIndex }
  else next

/-- The user actions on the measurement list and its history. -/
inductive Action where
  | add (now : Nat)
  | delete (id : Nat)
  | undo
  | redo
deriving DecidableEq, Repr

/-- One action followed by the re-render; `none` when the render throws. -/
def step (s : AppState) : Action → Option AppState
  | .add now => some (rerender s (addNewMeasurement now s))
  | .delete id => some (rerender s (handleDeleteMeasurement id s))
  | .undo => (undo s).map (rerender s)
  | .redo => (redo s).map (rerender s)

/-- A sequence of actions, one after the other. -/
def run (s : AppState) : List Action → Option AppState
  | [] => some s
  | a :: as => (step s a).bind fun t => run t as

/-- Lines 53-58: the new zoom level computed from the previous one. -/
def handleZoom (direction : String) (prevZoom : Int) : Int :=
  let newZoom := if direction = "in" then prevZoom + 10 else prevZoom - 10
  max 10 (min newZoom 200)

/-- The zoom level after a sequence of `handleZoom` calls, from the initial
`100` of line 15. -/
def zoomAfter (directions : List String) : Int :=
  directions.foldl (fun z d => handleZoom d z) 100

/-- The history invariant of the specification: `-1 ≤ cursor < length`. -/
def CursorInRange (s : AppState) : Prop :=
  -1 ≤ s.historyIndex ∧ s.historyIndex < (s.history.length : Int)

instance (s : AppState) : Decidable (CursorInRange s) := by
  unfold CursorInRange; infer_instance

/-- The visible list is the snapshot at the cursor when the cursor is `≥ 0`. -/
def VisibleIsSnapshot (s : AppState) : Prop :=
  0 ≤ s.historyIndex → index s.history s.historyIndex = some s.measurements

instance (s : AppState) : Decidable (VisibleIsSnapshot s) := by
  unfold VisibleIsSnapshot; infer_instance

/-- The specification's wording of delete: the list with the first record
whose `id` matches removed, and the list itself when there is none. -/
def removeFirstWithId : List Measurement → Nat → List Measurement
  | [], _ => []
  | m :: ms, id => if m.id = id then ms else m :: removeFirstWithId ms id

/-- The history step of a store mutation (lines 34-38 and 86-90 have this
shape: the new list is handed to `addToHistory` and returned as the new
`measurements`), with the `addToHistory` of the current render, which reads
the current `historyIndex` (deps of line 63). -/
def record (newState : List Measurement) (s : AppState) : AppState :=
  { addToHistory s.historyIndex newState s with measurements := newState }

/-- Successive `record` calls, first snapshot first. -/
def recordAll (snapshots : List (List Measurement)) (s : AppState) : AppState :=
  snapshots.foldl (fun s S => record S s) s

/-- The handler `f` invoked `n` times in a row. -/
def iterate (f : AppState → Option AppState) : Nat → AppState → Option AppState
  | 0, s => some s
  | n + 1, s => (f s).bind (iterate f n)

/-- The `id`s of a list, in order. -/
def ids (l : List Measurement) : List Nat := l.map (fun m => m.id)

/-- The values `Date.now()` returned to the `addNewMeasurement` calls of a
sequence of actions, in order. -/
def clockReadings : List Action → List Nat
  | [] => []
  | .add now :: as => now :: clockReadings as
  | _ :: as => clockReadings as

/-- Every `id` list of the state (the visible list and each snapshot) is a
subsequence of `all`. -/
def IdsWithin (all : List Nat) (s : AppState) : Prop :=
  (ids s.measurements).Sublist all ∧ ∀ h ∈ s.history, (ids h).Sublist all

/-- Each entry is one record longer than the entry before it. -/
def Growing (H : List (List Measurement)) : Prop :=
  ∀ i x y, H.get? i = some x → H.get? (i + 1) = some y → y.length = x.length + 1

/-- What holds of the states reached without `handleDeleteMeasurement`: the
memoised `addNewMeasurement` reads the current index, the cursor is in range
and is `-1` only on an empty history, the visible list is the snapshot at the
cursor, and the entries grow by one record each. -/
def Consistent (s : AppState) : Prop :=
  s.addCaptured = s.historyIndex ∧ CursorInRange s ∧ VisibleIsSnapshot s ∧
    (s.history = [] ∨ 0 ≤ s.historyIndex) ∧ Growing s.history

/-! ## Zoom -/

theorem handleZoom_range (d : String) (z : Int) (h : 10 ∣ z ∧ 10 ≤ z ∧ z ≤ 200) :
    10 ∣ handleZoom d z ∧ 10 ≤ handleZoom d z ∧ handleZoom d z ≤ 200 := by
  unfold handleZoom
  obtain ⟨h1, h2, h3⟩ := h
  by_cases hd : d = "in"
  · simp only [hd, if_true]; omega
  · simp only [hd, if_false]; omega

theorem foldl_handleZoom_range (ds : List String) (z : Int)
    (h : 10 ∣ z ∧ 10 ≤ z ∧ z ≤ 200) :
    10 ∣ ds.foldl (fun z d => handleZoom d z) z ∧
      10 ≤ ds.foldl (fun z d => handleZoom d z) z ∧
      ds.foldl (fun z d => handleZoom d z) z ≤ 200 := by
  induction ds generalizing z with
  | nil => simpa using h
  | cons d ds ih => simpa using ih (handleZoom d z) (handleZoom_range d z h)

/-- C10: from the initial zoom level 100, after any sequence of `handleZoom`
calls the level is a multiple of 10 between 10 and 200; zooming in adds exactly
10 unless the level is 200, zooming out subtracts exactly 10 unless the level
is 10, and in those two cases the level is unchanged. -/
theorem zoom_range_and_step (directions : List String) :
    10 ∣ zoomAfter directions ∧ 10 ≤ zoomAfter directions ∧ zoomAfter directions ≤ 200 ∧
      handleZoom "in" (zoomAfter directions) =
        (if zoomAfter directions = 200 then zoomAfter directions
         else zoomAfter directions + 10) ∧
      handleZoom "out" (zoomAfter directions) =
        (if zoomAfter directions = 10 then zoomAfter directions
         else zoomAfter directions - 10) := by
  have h := foldl_handleZoom_range directions 100 (by omega)
  change 10 ∣ zoomAfter directions ∧ 10 ≤ zoomAfter directions ∧
    zoomAfter directions ≤ 200 at h
  obtain ⟨h1, h2, h3⟩ := h
  refine ⟨h1, h2, h3, ?_, ?_⟩
  · have hin : handleZoom "in" (zoomAfter directions)
        = max 10 (min (zoomAfter directions + 10) 200) := by
      simp [handleZoom]
    rw [hin]
    split <;> omega
  · have hout : handleZoom "out" (zoomAfter directions)
        = max 10 (min (zoomAfter directions - 10) 200) := by
      simp [handleZoom]
    rw [hout]
    split <;> omega

/-! ## The measurement store -/

/-- C9: on a list of length `n`, `addNewMeasurement` yields a list of length
`n + 1` that starts with the `n` input records in order and ends with a record
named `"Item "` followed by `n + 1`, of width 100 and height 100. -/
theorem addNewMeasurement_appends (now : Nat) (s : AppState) :
    (addNewMeasurement now s).measurements.length = s.measurements.length + 1 ∧
      (addNewMeasurement now s).measurements.take s.measurements.length = s.measurements ∧
      ∃ r, (addNewMeasurement now s).measurements = s.measurements ++ [r] ∧
        r.name = "Item " ++ toString (s.measurements.length + 1) ∧
        r.width = 100 ∧ r.height = 100 := by
  refine ⟨?_, ?_, newMeasurement now s.measurements.length, ?_, rfl, rfl, rfl⟩
  · simp [addNewMeasurement, addToHistory, appendNew]
  · simp [addNewMeasurement, addToHistory, appendNew]
  · simp [addNewMeasurement, addToHistory, appendNew]

theorem deleteFrom_absent (l : List Measurement) (id : Nat) (h : ∀ m ∈ l, m.id ≠ id) :
    deleteFrom l id = l := by
  unfold deleteFrom
  rw [List.filter_eq_self]
  intro m hm
  simpa using h m hm

theorem deleteFrom_eq_removeFirst (l : List Measurement) (id : Nat)
    (h : (l.map (fun m => m.id)).Nodup) : deleteFrom l id = removeFirstWithId l id := by
  induction l with
  | nil => rfl
  | cons m ms ih =>
    simp only [List.map_cons, List.nodup_cons] at h
    obtain ⟨hm, hms⟩ := h
    by_cases e : m.id = id
    · have habs : ∀ x ∈ ms, x.id ≠ id := by
        intro x hx hxe
        exact hm (List.mem_map.mpr ⟨x, hx, by rw [hxe, e]⟩)
      have : deleteFrom (m :: ms) id = deleteFrom ms id := by
        simp [deleteFrom, e]
      rw [this, deleteFrom_absent ms id habs]
      simp [removeFirstWithId, e]
    · have : deleteFrom (m :: ms) id = m :: deleteFrom ms id := by
        simp [deleteFrom, e]
      rw [this, ih hms]
      simp [removeFirstWithId, e]

/-- C8: on a list with pairwise distinct ids, the list that
`handleDeleteMeasurement` computes and stores is the input with the first
record of that id removed and the others kept in order; when no record has the
id the stored list is the input list, and the handler returns normally. -/
theorem handleDeleteMeasurement_removes (s : AppState) (id : Nat)
    (h : (s.measurements.map (fun m => m.id)).Nodup) :
    (handleDeleteMeasurement id s).measurements = removeFirstWithId s.measurements id ∧
      (∃ t, step s (.delete id) = some t ∧
        t.measurements = removeFirstWithId s.measurements id) ∧
      ((∀ m ∈ s.measurements, m.id ≠ id) →
        (handleDeleteMeasurement id s).measurements = s.measurements ∧
        ∃ t, step s (.delete id) = some t ∧ t.measurements = s.measurements) := by
  have hd : (handleDeleteMeasurement id s).measurements = deleteFrom s.measurements id := rfl
  have hr : ∀ t, (rerender s t).measurements = t.measurements := by
    intro t; unfold rerender; split <;> rfl
  refine ⟨?_, ⟨_, rfl, ?_⟩, ?_⟩
  · rw [hd, deleteFrom_eq_removeFirst _ _ h]
  · rw [hr, hd, deleteFrom_eq_removeFirst _ _ h]
  · intro habs
    refine ⟨?_, _, rfl, ?_⟩
    · rw [hd, deleteFrom_absent _ _ habs]
    · rw [hr, hd, deleteFrom_absent _ _ habs]

theorem handleDeleteMeasurement_removes_witness :
    (handleDeleteMeasurement 1 (initialState seedMeasurements)).measurements
        = [⟨2, "Door 1", 80, 200⟩] ∧
      (handleDeleteMeasurement 7 (initialState seedMeasurements)).measurements
        = seedMeasurements := by
  have h := handleDeleteMeasurement_removes (initialState seedMeasurements) 1 (by decide)
  have h7 := handleDeleteMeasurement_removes (initialState seedMeasurements) 7 (by decide)
  refine ⟨?_, (h7.2.2 (by decide)).1⟩
  rw [h.1]
  decide

/-! ## The history controller -/

theorem sliceTo_nat {α : Type} (xs : List α) (k : Nat) : sliceTo xs (k : Int) = xs.take k := by
  unfold sliceTo
  have : ¬ ((k : Int) < 0) := by omega
  simp [this]

theorem index_nat {α : Type} (xs : List α) (k : Nat) : index xs (k : Int) = xs.get? k := by
  unfold index
  have : ¬ ((k : Int) < 0) := by omega
  simp [this]

theorem rerender_self (s : AppState) : rerender s s = s := by
  simp [rerender]

theorem undo_of_nonpos (s : AppState) (h : s.historyIndex ≤ 0) : undo s = some s := by
  unfold undo
  have : ¬ (s.historyIndex > 0) := by omega
  simp [this]

theorem redo_of_last (s : AppState) (h : (s.history.length : Int) - 1 ≤ s.historyIndex) :
    redo s = some s := by
  unfold redo
  have : ¬ (s.historyIndex < (s.history.length : Int) - 1) := by omega
  simp [this]

/-- C5: `undo` with the cursor at or below 0 (the empty history included) and
`redo` with the cursor on the last entry return normally and leave the
entries, the cursor and the visible list as they were. -/
theorem boundary_noops (s : AppState) :
    (s.historyIndex ≤ 0 → undo s = some s ∧ step s .undo = some s) ∧
      (s.historyIndex = (s.history.length : Int) - 1 →
        redo s = some s ∧ step s .redo = some s) := by
  constructor
  · intro h
    have hu : undo s = some s := undo_of_nonpos s h
    exact ⟨hu, by simp [step, hu, rerender_self]⟩
  · intro h
    have hr : redo s = some s := redo_of_last s (by omega)
    exact ⟨hr, by simp [step, hr, rerender_self]⟩

theorem boundary_noops_witness :
    undo (initialState seedMeasurements) = some (initialState seedMeasurements) ∧
      redo (initialState seedMeasurements) = some (initialState seedMeasurements) :=
  ⟨((boundary_noops (initialState seedMeasurements)).1 (by decide)).1,
   ((boundary_noops (initialState seedMeasurements)).2 (by decide)).1⟩

/-- C2: with the cursor in range, `addToHistory` (of the current render) makes
the entries the first `cursor + 1` old entries followed by the new list,
nothing that followed the old cursor being kept, and the cursor the last index
of the new entries.  From entries `[A, B, C]` and cursor 2, two undos give
cursor 0 with `A` visible, and recording `D` then gives entries `[A, D]` and
cursor 1. -/
theorem addToHistory_truncates (s : AppState) (S : List Measurement)
    (h₁ : -1 ≤ s.historyIndex) (h₂ : s.historyIndex < (s.history.length : Int)) :
    (addToHistory s.historyIndex S s).history
        = s.history.take (s.historyIndex + 1).toNat ++ [S] ∧
      ((addToHistory s.historyIndex S s).history.length : Int) = s.historyIndex + 2 ∧
      (addToHistory s.historyIndex S s).historyIndex
        = ((addToHistory s.historyIndex S s).history.length : Int) - 1 ∧
      ∀ (A B C D m : List Measurement) (c : Int),
        ∃ u, (undo ⟨m, [A, B, C], 2, c⟩).bind undo = some u ∧
          u.history = [A, B, C] ∧ u.historyIndex = 0 ∧ u.measurements = A ∧
          (addToHistory u.historyIndex D u).history = [A, D] ∧
          (addToHistory u.historyIndex D u).historyIndex = 1 := by
  obtain ⟨k, hk⟩ : ∃ k : Nat, s.historyIndex + 1 = (k : Int) :=
    ⟨(s.historyIndex + 1).toNat, by omega⟩
  have hkl : k ≤ s.history.length := by omega
  have hh : (addToHistory s.historyIndex S s).history = s.history.take k ++ [S] := by
    simp only [addToHistory, hk, sliceTo_nat]
  refine ⟨?_, ?_, ?_, ?_⟩
  · rw [hh, hk]; rfl
  · rw [hh]
    simp only [List.length_append, List.length_take, List.length_singleton]
    rw [Nat.min_eq_left hkl]
    push_cast
    omega
  · rw [hh]
    simp only [List.length_append, List.length_take, List.length_singleton]
    rw [Nat.min_eq_left hkl]
    simp only [addToHistory]
    push_cast
    omega
  · intro A B C D m c
    exact ⟨⟨A, [A, B, C], 0, c⟩, rfl, rfl, rfl, rfl, rfl, rfl⟩

theorem addToHistory_truncates_witness :
    (addToHistory 0 [] ⟨[], [seedMeasurements, [], []], 0, 0⟩).history
      = [seedMeasurements, []] :=
  (addToHistory_truncates ⟨[], [seedMeasurements, [], []], 0, 0⟩ []
    (by decide) (by decide)).1

theorem undo_succ (m : List Measurement) (H : List (List Measurement)) (i : Nat) (c : Int)
    (x : List Measurement) (hx : H.get? i = some x) :
    undo ⟨m, H, ((i + 1 : Nat) : Int), c⟩ = some ⟨x, H, (i : Int), c⟩ := by
  unfold undo
  have h1 : (((i + 1 : Nat) : Int) > 0) := by omega
  have h2 : ((i + 1 : Nat) : Int) - 1 = (i : Int) := by omega
  simp only [h1, if_true, h2, index_nat, hx, Option.map_some']

theorem redo_succ (m : List Measurement) (H : List (List Measurement)) (i : Nat) (c : Int)
    (x : List Measurement) (hx : H.get? (i + 1) = some x) :
    redo ⟨m, H, (i : Int), c⟩ = some ⟨x, H, ((i + 1 : Nat) : Int), c⟩ := by
  unfold redo
  have hl : i + 1 < H.length := by
    rcases Nat.lt_or_ge (i + 1) H.length with h | h
    · exact h
    · rw [List.get?_eq_none.mpr h] at hx; cases hx
  have h1 : ((i : Int) < (H.length : Int) - 1) := by omega
  have h2 : (i : Int) + 1 = ((i + 1 : Nat) : Int) := by omega
  simp only [h1, if_true, h2, index_nat, hx, Option.map_some']

theorem iterate_undo (H : List (List Measurement)) (c : Int) (i : Nat)
    (x : List Measurement) (hx : H.get? i = some x) :
    ∀ (j : Nat) (m : List Measurement), i + j < H.length →
      iterate undo j ⟨m, H, ((i + j : Nat) : Int), c⟩
        = some ⟨if j = 0 then m else x, H, (i : Int), c⟩ := by
  intro j
  induction j with
  | zero => intro m _; rfl
  | succ j ih =>
    intro m hlt
    have hlt2 : i + j < H.length := by omega
    obtain ⟨y, hy⟩ : ∃ y, H.get? (i + j) = some y :=
      ⟨H.get ⟨i + j, hlt2⟩, List.get?_eq_get hlt2⟩
    have hstep := undo_succ m H (i + j) c y hy
    have e : ((i + (j + 1) : Nat) : Int) = ((i + j + 1 : Nat) : Int) := by omega
    rw [iterate, e, hstep, Option.some_bind, ih y hlt2]
    by_cases hj : j = 0
    · subst hj
      have : y = x := by
        rw [Nat.add_zero] at hy
        rw [hx] at hy
        exact (Option.some.inj hy).symm
      simp [this]
    · simp [hj]

theorem iterate_redo (H : List (List Measurement)) (c : Int) :
    ∀ (j i : Nat) (m x : List Measurement), H.get? (i + j) = some x →
      iterate redo j ⟨m, H, (i : Int), c⟩
        = some ⟨if j = 0 then m else x, H, ((i + j : Nat) : Int), c⟩ := by
  intro j
  induction j with
  | zero => intro i m x _; rfl
  | succ j ih =>
    intro i m x hx
    have hlt : i + (j + 1) < H.length := by
      rcases Nat.lt_or_ge (i + (j + 1)) H.length with h | h
      · exact h
      · rw [List.get?_eq_none.mpr h] at hx; cases hx
    have hlt2 : i + 1 < H.length := by omega
    obtain ⟨y, hy⟩ : ∃ y, H.get? (i + 1) = some y :=
      ⟨H.get ⟨i + 1, hlt2⟩, List.get?_eq_get hlt2⟩
    have hstep := redo_succ m H i c y hy
    have hx2 : H.get? (i + 1 + j) = some x := by
      have : i + 1 + j = i + (j + 1) := by omega
      rw [this]; exact hx
    rw [iterate, hstep, Option.some_bind, ih (i + 1) y x hx2]
    have e : ((i + 1 + j : Nat) : Int) = ((i + (j + 1) : Nat) : Int) := by omega
    by_cases hj : j = 0
    · subst hj
      have : y = x := by
        rw [Nat.add_zero] at hx2
        rw [hy] at hx2
        exact Option.some.inj hx2
      simp [this]
    · simp [hj, e]

theorem record_spec (s : AppState) (S : List Measurement)
    (hi : s.historyIndex = (s.history.length : Int) - 1) :
    record S s = ⟨S, s.history ++ [S], (s.history.length : Int), s.addCaptured⟩ := by
  have e : s.historyIndex + 1 = (s.history.length : Int) := by omega
  simp only [record, addToHistory, e, sliceTo_nat, List.take_length]

theorem recordAll_spec (ss : List (List Measurement)) :
    ∀ (s : AppState), s.historyIndex = (s.history.length : Int) - 1 →
      ∀ (S : List Measurement),
        recordAll (ss ++ [S]) s
          = ⟨S, s.history ++ (ss ++ [S]), ((s.history.length + ss.length : Nat) : Int),
              s.addCaptured⟩ := by
  induction ss with
  | nil =>
    intro s hi S
    simp only [recordAll, List.nil_append, List.foldl_cons, List.foldl_nil, record_spec s S hi]
    simp
  | cons T ss ih =>
    intro s hi S
    have h1 : recordAll ((T :: ss) ++ [S]) s = recordAll (ss ++ [S]) (record T s) := rfl
    rw [h1, record_spec s T hi]
    rw [ih _ (by simp) S]
    simp only [List.length_append, List.length_singleton, List.append_assoc,
      List.singleton_append, List.length_cons, AppState.mk.injEq, true_and, and_true]
    refine ⟨rfl, ?_⟩
    simp only [List.length_nil]
    omega

/-- C4: after `n + 1` record calls from the initial state the entries are the
recorded snapshots `S0 .. Sn` and the cursor is `n`; `n` undos (which end on
cursor 0) followed by `n` redos then leave the entries unchanged, the cursor
equal to `n` and the visible list equal to `Sn`. -/
theorem undo_redo_round_trip (m0 : List Measurement) (ss : List (List Measurement))
    (Sn : List Measurement) :
    (recordAll (ss ++ [Sn]) (initialState m0)).history = ss ++ [Sn] ∧
      (recordAll (ss ++ [Sn]) (initialState m0)).historyIndex = (ss.length : Int) ∧
      ∃ u, iterate undo ss.length (recordAll (ss ++ [Sn]) (initialState m0)) = some u ∧
        u.history = ss ++ [Sn] ∧ u.historyIndex = 0 ∧
        ∃ t, iterate redo ss.length u = some t ∧
          t.history = ss ++ [Sn] ∧ t.historyIndex = (ss.length : Int) ∧
          t.measurements = Sn := by
  have hs : recordAll (ss ++ [Sn]) (initialState m0)
      = ⟨Sn, ss ++ [Sn], (ss.length : Int), -1⟩ := by
    rw [recordAll_spec ss (initialState m0) rfl Sn]
    simp [initialState]
  have hlen : 0 + ss.length < (ss ++ [Sn]).length := by simp
  obtain ⟨x, hx⟩ : ∃ x, (ss ++ [Sn]).get? 0 = some x :=
    ⟨(ss ++ [Sn]).get ⟨0, by simp⟩, List.get?_eq_get _⟩
  have hlast : (ss ++ [Sn]).get? (0 + ss.length) = some Sn := by
    simp
  have hu := iterate_undo (ss ++ [Sn]) (-1) 0 x hx ss.length Sn hlen
  have hr := iterate_redo (ss ++ [Sn]) (-1) ss.length 0
    (if ss.length = 0 then Sn else x) Sn hlast
  simp only [Nat.zero_add] at hu hr
  rw [hs]
  refine ⟨rfl, rfl, _, hu, rfl, rfl, _, hr, rfl, rfl, ?_⟩
  by_cases h0 : ss.length = 0 <;> simp [h0]

/-! ## Identifiers -/

theorem mem_sliceTo {α : Type} (xs : List α) (e : Int) (x : α) (h : x ∈ sliceTo xs e) :
    x ∈ xs := by
  unfold sliceTo at h
  split at h <;> exact List.mem_of_mem_take h

theorem mem_of_index {α : Type} (xs : List α) (i : Int) (x : α) (h : index xs i = some x) :
    x ∈ xs := by
  unfold index at h
  split at h
  · cases h
  · exact List.get?_mem h

theorem idsWithin_rerender (all : List Nat) (prev next : AppState)
    (h : IdsWithin all next) : IdsWithin all (rerender prev next) := by
  unfold MeasureApp.rerender
  split
  · exact h
  · exact h

theorem idsWithin_step (all : List Nat) (s t : AppState) (a : Action)
    (h : IdsWithin all s) (hst : step s a = some t) :
    IdsWithin (all ++ clockReadings [a]) t := by
  obtain ⟨hm, hh⟩ := h
  cases a with
  | add now =>
    simp only [MeasureApp.step, Option.some.injEq] at hst
    subst hst
    apply idsWithin_rerender
    have hnew : ids (appendNew now s.measurements) = ids s.measurements ++ [now] := by
      simp [ids, appendNew, newMeasurement]
    constructor
    · show (ids (appendNew now s.measurements)).Sublist (all ++ [now])
      rw [hnew]
      exact List.Sublist.append hm (List.Sublist.refl _)
    · intro x hx
      have hx2 : x ∈ sliceTo s.history (s.addCaptured + 1) ++ [appendNew now s.measurements] := hx
      rcases List.mem_append.mp hx2 with hx3 | hx3
      · exact (hh x (mem_sliceTo _ _ _ hx3)).trans (List.sublist_append_left _ _)
      · rw [List.mem_singleton.mp hx3, hnew]
        exact List.Sublist.append hm (List.Sublist.refl _)
  | delete id =>
    simp only [MeasureApp.step, Option.some.injEq] at hst
    subst hst
    apply idsWithin_rerender
    have hdel : (ids (deleteFrom s.measurements id)).Sublist all :=
      (List.Sublist.map _ (List.filter_sublist _)).trans hm
    simp only [clockReadings, List.append_nil]
    constructor
    · exact hdel
    · intro x hx
      have hx2 : x ∈ sliceTo s.history (-1 + 1) ++ [deleteFrom s.measurements id] := hx
      rcases List.mem_append.mp hx2 with hx3 | hx3
      · exact hh x (mem_sliceTo _ _ _ hx3)
      · rw [List.mem_singleton.mp hx3]; exact hdel
  | undo =>
    simp only [MeasureApp.step, Option.map_eq_some'] at hst
    obtain ⟨u, hu, rfl⟩ := hst
    apply idsWithin_rerender
    simp only [clockReadings, List.append_nil]
    unfold MeasureApp.undo at hu
    split at hu
    · simp only [Option.map_eq_some'] at hu
      obtain ⟨m, hmi, rfl⟩ := hu
      exact ⟨hh m (mem_of_index _ _ _ hmi), hh⟩
    · cases hu; exact ⟨hm, hh⟩
  | redo =>
    simp only [MeasureApp.step, Option.map_eq_some'] at hst
    obtain ⟨u, hu, rfl⟩ := hst
    apply idsWithin_rerender
    simp only [clockReadings, List.append_nil]
    unfold MeasureApp.redo at hu
    split at hu
    · simp only [Option.map_eq_some'] at hu
      obtain ⟨m, hmi, rfl⟩ := hu
      exact ⟨hh m (mem_of_index _ _ _ hmi), hh⟩
    · cases hu; exact ⟨hm, hh⟩

theorem clockReadings_cons (a : Action) (as : List Action) :
    clockReadings (a :: as) = clockReadings [a] ++ clockReadings as := by
  cases a <;> simp [clockReadings]

theorem idsWithin_run (acts : List Action) :
    ∀ (all : List Nat) (s t : AppState), IdsWithin all s → run s acts = some t →
      IdsWithin (all ++ clockReadings acts) t := by
  induction acts with
  | nil =>
    intro all s t h hr
    simp only [MeasureApp.run, Option.some.injEq] at hr
    subst hr
    simpa [clockReadings] using h
  | cons a as ih =>
    intro all s t h hr
    simp only [MeasureApp.run, Option.bind_eq_some] at hr
    obtain ⟨u, hu, hr2⟩ := hr
    have := ih _ u t (idsWithin_step all s u a h hu) hr2
    rw [clockReadings_cons, ← List.append_assoc]
    exact this

theorem run_store_total (acts : List Action) :
    ∀ (s : AppState), (∀ a ∈ acts, a ≠ Action.undo ∧ a ≠ Action.redo) →
      ∃ t, run s acts = some t := by
  induction acts with
  | nil => intro s _; exact ⟨s, rfl⟩
  | cons a as ih =>
    intro s h
    have ha := h a (List.mem_cons_self _ _)
    have has : ∀ b ∈ as, b ≠ Action.undo ∧ b ≠ Action.redo :=
      fun b hb => h b (List.mem_cons_of_mem _ hb)
    cases a with
    | add now => exact ih _ has
    | delete id => exact ih _ has
    | undo => exact absurd rfl ha.1
    | redo => exact absurd rfl ha.2

/-- C7, as the code has it: when the `Date.now()` values read by the
`addNewMeasurement` calls are pairwise distinct and differ from the ids of the
initial list, every measurement list reached by a sequence of actions, and
every snapshot kept in the history, has pairwise distinct ids; a sequence of
`addNewMeasurement` and `handleDeleteMeasurement` calls always reaches such a
list. -/
theorem ids_distinct_of_distinct_clock (m0 : List Measurement) (acts : List Action)
    (h : (ids m0 ++ clockReadings acts).Nodup) :
    (∀ t, run (initialState m0) acts = some t →
        (ids t.measurements).Nodup ∧ ∀ snap ∈ t.history, (ids snap).Nodup) ∧
      ((∀ a ∈ acts, a ≠ Action.undo ∧ a ≠ Action.redo) →
        ∃ t, run (initialState m0) acts = some t ∧ (ids t.measurements).Nodup) := by
  have h0 : IdsWithin (ids m0) (initialState m0) :=
    ⟨List.Sublist.refl _, by intro x hx; cases hx⟩
  have key : ∀ t, run (initialState m0) acts = some t →
      (ids t.measurements).Nodup ∧ ∀ snap ∈ t.history, (ids snap).Nodup := by
    intro t ht
    obtain ⟨h1, h2⟩ := idsWithin_run acts _ _ t h0 ht
    exact ⟨h.sublist h1, fun snap hs => h.sublist (h2 snap hs)⟩
  refine ⟨key, ?_⟩
  intro hstore
  obtain ⟨t, ht⟩ := run_store_total acts (initialState m0) hstore
  exact ⟨t, ht, (key t ht).1⟩

theorem ids_distinct_of_distinct_clock_witness :
    ∃ t, run (initialState seedMeasurements)
        [.add 1700000000000, .delete 1, .add 1700000000001] = some t ∧
      (ids t.measurements).Nodup :=
  (ids_distinct_of_distinct_clock seedMeasurements
    [.add 1700000000000, .delete 1, .add 1700000000001] (by decide)).2 (by decide)

/-- C7, as stated, fails: two `addNewMeasurement` calls that read the same
`Date.now()` value create two records with the same id. -/
theorem ids_collide_on_equal_clock :
    ∃ t, run (initialState seedMeasurements) [.add 1700000000000, .add 1700000000000] = some t ∧
      ids t.measurements = [1, 2, 1700000000000, 1700000000000] ∧
      ¬ (ids t.measurements).Nodup :=
  ⟨_, rfl, by decide, by decide⟩

/-! ## The handlers one after the other -/

theorem growing_take_append (H : List (List Measurement)) (k : Nat) (hk : k ≤ H.length)
    (z : List Measurement) (hH : Growing H)
    (hz : ∀ j y, j + 1 = k → H.get? j = some y → z.length = y.length + 1) :
    Growing (H.take k ++ [z]) := by
  intro i x y hx hy
  have hlen : (H.take k).length = k := by simp [hk]
  simp only [List.get?_eq_getElem?] at hx hy hz
  rcases Nat.lt_trichotomy (i + 1) k with h | h | h
  · rw [List.getElem?_append_left (by omega), List.getElem?_take_of_lt (by omega)] at hx hy
    exact hH i x y (by simpa using hx) (by simpa using hy)
  · rw [List.getElem?_append_left (by omega), List.getElem?_take_of_lt (by omega)] at hx
    rw [List.getElem?_append_right (by omega)] at hy
    have : i + 1 - (H.take k).length = 0 := by omega
    rw [this] at hy
    simp only [List.getElem?_cons_zero, Option.some.injEq] at hy
    subst hy
    exact hz i x h hx
  · rw [List.getElem?_append_right (by omega)] at hy
    have : i + 1 - (H.take k).length = (i - k) + 1 := by omega
    rw [this] at hy
    simp at hy

theorem consistent_initial (m0 : List Measurement) : Consistent (initialState m0) := by
  refine ⟨rfl, ⟨by simp [initialState], by simp [initialState]⟩, ?_, Or.inl rfl, ?_⟩
  · intro h; simp [initialState] at h
  · intro i x y hx _; cases hx

theorem consistent_add (now : Nat) (s : AppState) (h : Consistent s) :
    Consistent (rerender s (addNewMeasurement now s)) := by
  obtain ⟨m, H, idx', idx⟩ := s
  obtain ⟨hc, ⟨hlo, hhi⟩, hv, _, hg⟩ := h
  simp only at hc hlo hhi hv hg
  simp only [VisibleIsSnapshot] at hv
  subst hc
  obtain ⟨k, hk⟩ : ∃ k : Nat, idx + 1 = (k : Int) := ⟨(idx + 1).toNat, by omega⟩
  have hkl : k ≤ H.length := by omega
  have ht : rerender ⟨m, H, idx, idx⟩ (addNewMeasurement now ⟨m, H, idx, idx⟩)
      = ⟨appendNew now m, H.take k ++ [appendNew now m], (k : Int), (k : Int)⟩ := by
    have hne : (addNewMeasurement now ⟨m, H, idx, idx⟩).measurements.length
        ≠ (AppState.mk m H idx idx).measurements.length := by
      simp [addNewMeasurement, addToHistory, appendNew]
    unfold rerender
    rw [if_pos hne]
    simp [addNewMeasurement, addToHistory, hk, sliceTo_nat]
  rw [ht]
  have hlen : (H.take k).length = k := by simp [hkl]
  refine ⟨rfl, ⟨?_, ?_⟩, ?_, Or.inr ?_, ?_⟩
  · show (-1 : Int) ≤ (k : Int); omega
  · show (k : Int) < ((H.take k ++ [appendNew now m]).length : Int)
    simp only [List.length_append, hlen, List.length_singleton]
    omega
  · intro _
    show index (H.take k ++ [appendNew now m]) (k : Int) = some (appendNew now m)
    rw [index_nat, List.get?_eq_getElem?, List.getElem?_append_right (by omega)]
    simp [hlen]
  · show (0 : Int) ≤ (k : Int); omega
  · apply growing_take_append H k hkl _ hg
    intro j y hj hy
    have hidx : idx = (j : Int) := by omega
    have hm := hv (by omega)
    rw [hidx, index_nat, hy] at hm
    cases hm
    simp [appendNew]

theorem consistent_undo (s : AppState) (h : Consistent s) :
    ∃ t, step s .undo = some t ∧ Consistent t := by
  by_cases hpos : s.historyIndex ≤ 0
  · exact ⟨s, by simp [step, undo_of_nonpos s hpos, rerender_self], h⟩
  · obtain ⟨m, H, idx', idx⟩ := s
    obtain ⟨hc, ⟨hlo, hhi⟩, hv, _, hg⟩ := h
    simp only at hc hlo hhi hv hg hpos
    simp only [VisibleIsSnapshot] at hv
    subst hc
    obtain ⟨j, hj⟩ : ∃ j : Nat, idx = ((j + 1 : Nat) : Int) := ⟨(idx - 1).toNat, by omega⟩
    subst hj
    have hjl : j < H.length := by omega
    obtain ⟨x, hx⟩ : ∃ x, H.get? j = some x := ⟨H.get ⟨j, hjl⟩, List.get?_eq_get hjl⟩
    have hm : H.get? (j + 1) = some m := by
      have := hv (by omega)
      rwa [index_nat] at this
    have hlen : m.length = x.length + 1 := hg j x m hx hm
    have hu := undo_succ m H j ((j + 1 : Nat) : Int) x hx
    have hne : (AppState.mk x H (j : Int) ((j + 1 : Nat) : Int)).measurements.length
        ≠ (AppState.mk m H ((j + 1 : Nat) : Int) ((j + 1 : Nat) : Int)).measurements.length := by
      show x.length ≠ m.length
      omega
    refine ⟨⟨x, H, (j : Int), (j : Int)⟩, ?_, rfl, ⟨?_, ?_⟩, ?_, Or.inr ?_, hg⟩
    · simp only [step, hu, Option.map_some', rerender, if_pos hne]
    · show (-1 : Int) ≤ (j : Int); omega
    · show (j : Int) < (H.length : Int); omega
    · intro _
      show index H (j : Int) = some x
      rw [index_nat, hx]
    · show (0 : Int) ≤ (j : Int); omega

theorem consistent_redo (s : AppState) (h : Consistent s) :
    ∃ t, step s .redo = some t ∧ Consistent t := by
  by_cases hlast : (s.history.length : Int) - 1 ≤ s.historyIndex
  · exact ⟨s, by simp [step, redo_of_last s hlast, rerender_self], h⟩
  · obtain ⟨m, H, idx', idx⟩ := s
    obtain ⟨hc, ⟨hlo, hhi⟩, hv, he, hg⟩ := h
    simp only at hc hlo hhi hv he hg hlast
    simp only [VisibleIsSnapshot] at hv
    subst hc
    have hne0 : H ≠ [] := by
      intro e; subst e; simp at hlast; omega
    have h0 : 0 ≤ idx := by
      rcases he with e | e
      · exact absurd e hne0
      · exact e
    obtain ⟨j, hj⟩ : ∃ j : Nat, idx = (j : Int) := ⟨idx.toNat, by omega⟩
    subst hj
    have hjl : j + 1 < H.length := by omega
    obtain ⟨y, hy⟩ : ∃ y, H.get? (j + 1) = some y :=
      ⟨H.get ⟨j + 1, hjl⟩, List.get?_eq_get hjl⟩
    have hm : H.get? j = some m := by
      have := hv (by omega)
      rwa [index_nat] at this
    have hlen : y.length = m.length + 1 := hg j m y hm hy
    have hr := redo_succ m H j (j : Int) y hy
    have hne : (AppState.mk y H ((j + 1 : Nat) : Int) (j : Int)).measurements.length
        ≠ (AppState.mk m H (j : Int) (j : Int)).measurements.length := by
      show y.length ≠ m.length
      omega
    refine ⟨⟨y, H, ((j + 1 : Nat) : Int), ((j + 1 : Nat) : Int)⟩, ?_, rfl, ⟨?_, ?_⟩, ?_,
      Or.inr ?_, hg⟩
    · simp only [step, hr, Option.map_some', rerender, if_pos hne]
    · show (-1 : Int) ≤ ((j + 1 : Nat) : Int); omega
    · show ((j + 1 : Nat) : Int) < (H.length : Int); omega
    · intro _
      show index H ((j + 1 : Nat) : Int) = some y
      rw [index_nat, hy]
    · show (0 : Int) ≤ ((j + 1 : Nat) : Int); omega

theorem consistent_run (acts : List Action) :
    ∀ (s : AppState), Consistent s → (∀ a ∈ acts, ∀ id, a ≠ Action.delete id) →
      ∃ t, run s acts = some t ∧ Consistent t := by
  induction acts with
  | nil => intro s h _; exact ⟨s, rfl, h⟩
  | cons a as ih =>
    intro s h hnd
    have has : ∀ b ∈ as, ∀ id, b ≠ Action.delete id :=
      fun b hb => hnd b (List.mem_cons_of_mem _ hb)
    have hstep : ∃ u, step s a = some u ∧ Consistent u := by
      cases a with
      | add now => exact ⟨_, rfl, consistent_add now s h⟩
      | delete id => exact absurd rfl (hnd _ (List.mem_cons_self _ _) id)
      | undo => exact consistent_undo s h
      | redo => exact consistent_redo s h
    obtain ⟨u, hu, hcu⟩ := hstep
    obtain ⟨t, ht, hct⟩ := ih u hcu has
    exact ⟨t, by simp [run, hu, ht], hct⟩

/-- The two history invariants hold after every sequence of
`addNewMeasurement`, `undo` and `redo` from the initial state: the sequences
that break them all contain a `handleDeleteMeasurement`. -/
theorem invariants_without_delete (m0 : List Measurement) (acts : List Action)
    (h : ∀ a ∈ acts, ∀ id, a ≠ Action.delete id) :
    ∃ t, run (initialState m0) acts = some t ∧ CursorInRange t ∧ VisibleIsSnapshot t := by
  obtain ⟨t, ht, hc⟩ := consistent_run acts (initialState m0) (consistent_initial m0) h
  exact ⟨t, ht, hc.2.1, hc.2.2.1⟩

/-- C1, evaluated on the code with `Date.now() = 1700000000000`: the add step
is as the scenario says; the delete of Window 1 then leaves the single entry
`[Door 1, Item 3]` in the history (the snapshot `[Window 1, Door 1, Item 3]`
is dropped) with the index at 1, and undo then shows `[Door 1, Item 3]` with
the index at 0. -/
theorem endToEnd_scenario_on_code :
    step (initialState seedMeasurements) (.add 1700000000000)
        = some ⟨[⟨1, "Window 1", 100, 150⟩, ⟨2, "Door 1", 80, 200⟩,
                 ⟨1700000000000, "Item 3", 100, 100⟩],
                [[⟨1, "Window 1", 100, 150⟩, ⟨2, "Door 1", 80, 200⟩,
                  ⟨1700000000000, "Item 3", 100, 100⟩]], 0, 0⟩ ∧
      step ⟨[⟨1, "Window 1", 100, 150⟩, ⟨2, "Door 1", 80, 200⟩,
             ⟨1700000000000, "Item 3", 100, 100⟩],
            [[⟨1, "Window 1", 100, 150⟩, ⟨2, "Door 1", 80, 200⟩,
              ⟨1700000000000, "Item 3", 100, 100⟩]], 0, 0⟩ (.delete 1)
        = some ⟨[⟨2, "Door 1", 80, 200⟩, ⟨1700000000000, "Item 3", 100, 100⟩],
                [[⟨2, "Door 1", 80, 200⟩, ⟨1700000000000, "Item 3", 100, 100⟩]], 1, 1⟩ ∧
      step ⟨[⟨2, "Door 1", 80, 200⟩, ⟨1700000000000, "Item 3", 100, 100⟩],
            [[⟨2, "Door 1", 80, 200⟩, ⟨1700000000000, "Item 3", 100, 100⟩]], 1, 1⟩ .undo
        = some ⟨[⟨2, "Door 1", 80, 200⟩, ⟨1700000000000, "Item 3", 100, 100⟩],
                [[⟨2, "Door 1", 80, 200⟩, ⟨1700000000000, "Item 3", 100, 100⟩]], 0, 1⟩ := by
  refine ⟨by decide, by decide, by decide⟩

/-- C3, evaluated on the code: after `addNewMeasurement` and then
`handleDeleteMeasurement(1)` from the initial state, `historyIndex` is 1 and
`history` has one entry, so the index is not below the length. -/
theorem cursor_out_of_range_after_delete :
    ∃ t, run (initialState seedMeasurements) [.add 1700000000000, .delete 1] = some t ∧
      t.historyIndex = 1 ∧ t.history.length = 1 ∧ ¬ CursorInRange t :=
  ⟨_, rfl, by decide, by decide, by decide⟩

/-- C6, evaluated on the code: after `addNewMeasurement` and then
`handleDeleteMeasurement(1)` from the initial state, `historyIndex` is 1,
`history[1]` is `undefined`, and the visible list is `[Door 1, Item 3]`. -/
theorem visible_not_snapshot_after_delete :
    ∃ t, run (initialState seedMeasurements) [.add 1700000000000, .delete 1] = some t ∧
      0 ≤ t.historyIndex ∧ index t.history t.historyIndex = none ∧
      t.measurements = [⟨2, "Door 1", 80, 200⟩, ⟨1700000000000, "Item 3", 100, 100⟩] ∧
      ¬ VisibleIsSnapshot t :=
  ⟨_, rfl, by decide, by decide, by decide, by decide⟩

end MeasureApp
